import Mathlib

/-!  Verification of the two example scripts of this repository:
the HMI synoptic-map header correction (examples/plotting/hmi_synoptic_maps.py)
and the loop edge-enhancement pipeline (examples/loop_edge_enhance.py).
Floating-point numbers of the scripts are modelled as real numbers; the
numpy constant pi is modelled as the real number pi.  -/

/-- Scalar metadata value of a FITS-style header: a number or a text string. -/
inductive Scalar (α : Type) where
  | num (x : α) : Scalar α
  | str (s : String) : Scalar α
  deriving DecidableEq

/-- Header mapping of an Image Map: string keys to optional scalar values,
the dict-like meta attribute of the scripts. -/
def Header (α : Type) : Type := String → Option (Scalar α)

/-- Python dict assignment meta[k] = v. -/
def mset {α : Type} (m : Header α) (k : String) (v : Scalar α) : Header α :=
  fun q => if q = k then some v else m q

/-- Read a numeric header entry. -/
def getNum {α : Type} (m : Header α) (k : String) : Option α :=
  match m k with
  | some (Scalar.num x) => some x
  | _ => none

/-- First HMI header fix of the script: meta CUNIT2 = "degree". -/
def setCUNIT2 (m : Header ℝ) : Header ℝ := mset m "CUNIT2" (Scalar.str "degree")

/-- Second HMI header fix: meta CDELT2 = 180 / pi * meta CDELT2.  When the
entry is absent or textual the script would raise; the embedding leaves the
header unchanged there, a case outside every claim. -/
noncomputable def scaleCDELT2 (m : Header ℝ) : Header ℝ :=
  match getNum m "CDELT2" with
  | some d => mset m "CDELT2" (Scalar.num (180 / Real.pi * d))
  | none => m

/-- Third HMI header fix: meta CDELT1 *= -1, with the same fallback. -/
def negCDELT1 (m : Header ℝ) : Header ℝ :=
  match getNum m "CDELT1" with
  | some c => mset m "CDELT1" (Scalar.num (c * (-1)))
  | none => m

/-- The three HMI header corrections, in the order of the script. -/
noncomputable def hmiCorrect (m : Header ℝ) : Header ℝ :=
  negCDELT1 (scaleCDELT2 (setCUNIT2 m))

/-- Image Map: a 2-D data array plus a header mapping. -/
structure ImageMap (α : Type) where
  data : List (List α)
  meta : Header α

/-- State of the variable syn_map after the three correction statements of the
HMI script (the statements assign into the meta of the one map in scope,
leaving the data array alone). -/
noncomputable def runHmiAdjust (M : ImageMap ℝ) : ImageMap ℝ :=
  { data := M.data, meta := hmiCorrect M.meta }

/-- Modelled from the spec: metadata_adjust, the override-set metadata
adjuster, which is not in src (the scripts only assign keys directly).  It
replaces each listed key by its fixed new value, later list entries
overriding earlier ones. -/
def metadata_adjust {α : Type} (ov : List (String × Scalar α)) (m : Header α) : Header α :=
  ov.foldl (fun acc kv => mset acc kv.1 kv.2) m

/-- Last value an override list assigns to a key, if any. -/
def lastVal {α : Type} (ov : List (String × Scalar α)) (k : String) : Option (Scalar α) :=
  ov.foldl (fun acc kv => if kv.1 = k then some kv.2 else acc) none

/-- Concrete HMI-like header used by witnesses: CDELT2 = 1, CDELT1 = 2. -/
noncomputable def mWit : Header ℝ := fun k =>
  if k = "CDELT2" then some (Scalar.num 1)
  else if k = "CDELT1" then some (Scalar.num 2)
  else if k = "CUNIT2" then some (Scalar.str "Mm")
  else none

/-- Number of columns of a 2-D array: length of the first row (arrays coming
from numpy are rectangular). -/
def ncols {α : Type} (a : List (List α)) : ℕ := (a.headD []).length

/-- Shape of a 2-D array, as numpy reports it. -/
def shape {α : Type} (a : List (List α)) : ℕ × ℕ := (a.length, ncols a)

/-- Zero-padded read of a 2-D array: boundary mode constant with fill 0. -/
def getC {α : Type} [Zero α] (a : List (List α)) (i j : ℤ) : α :=
  if 0 ≤ i ∧ 0 ≤ j then (a.getD i.toNat []).getD j.toNat 0 else 0

/-- Value at pixel (i, j) of ndimage.sobel(a, 0, mode constant): the
derivative weights (-1, 0, 1) along axis 0 followed by the smoothing
weights (1, 2, 1) along axis 1, all reads zero-padded. -/
def sobel0at (a : List (List ℝ)) (i j : ℤ) : ℝ :=
  (getC a (i + 1) (j - 1) - getC a (i - 1) (j - 1))
    + 2 * (getC a (i + 1) j - getC a (i - 1) j)
    + (getC a (i + 1) (j + 1) - getC a (i - 1) (j + 1))

/-- Value at pixel (i, j) of ndimage.sobel(a, 1, mode constant): derivative
along axis 1, smoothing along axis 0. -/
def sobel1at (a : List (List ℝ)) (i j : ℤ) : ℝ :=
  (getC a (i - 1) (j + 1) - getC a (i - 1) (j - 1))
    + 2 * (getC a i (j + 1) - getC a i (j - 1))
    + (getC a (i + 1) (j + 1) - getC a (i + 1) (j - 1))

/-- The array sx of the script: ndimage.sobel(aia_smap.data, 0, mode constant). -/
def sobelArr0 (a : List (List ℝ)) : List (List ℝ) :=
  (List.range a.length).map fun i : ℕ =>
    (List.range (ncols a)).map fun j : ℕ => sobel0at a (i : ℤ) (j : ℤ)

/-- The array sy of the script: ndimage.sobel(aia_smap.data, 1, mode constant). -/
def sobelArr1 (a : List (List ℝ)) : List (List ℝ) :=
  (List.range a.length).map fun i : ℕ =>
    (List.range (ncols a)).map fun j : ℕ => sobel1at a (i : ℤ) (j : ℤ)

/-- Pointwise Euclidean norm np.hypot. -/
noncomputable def hypotR (x y : ℝ) : ℝ := Real.sqrt (x ^ 2 + y ^ 2)

/-- Elementwise hypot of two arrays of equal shape: np.hypot(sx, sy). -/
noncomputable def hypotArr (x y : List (List ℝ)) : List (List ℝ) :=
  List.zipWith (fun r s => List.zipWith hypotR r s) x y

/-- The edge-enhancement filter of the script: a Sobel pass along each of the
two axes with zero-padded constant boundaries, combined pointwise by hypot. -/
noncomputable def edgeEnhance (a : List (List ℝ)) : List (List ℝ) :=
  hypotArr (sobelArr0 a) (sobelArr1 a)

/-- Modelled from the spec: the Map constructor applied to a plain array and a
header, Map(edge_enhanced_im, aia_smap.meta); the constructor itself is
library code not in src, and per the spec it wraps the pair unchanged. -/
def mkMap (a : List (List ℝ)) (m : Header ℝ) : ImageMap ℝ := ⟨a, m⟩

/-- The map built from the edge-enhanced data and the input header. -/
noncomputable def edgeMapOf (M : ImageMap ℝ) : ImageMap ℝ :=
  mkMap (edgeEnhance M.data) M.meta

/-- Variables of the edge-enhancement script after the submap is formed. -/
structure EdgeState where
  aia_smap : ImageMap ℝ
  sx : List (List ℝ)
  sy : List (List ℝ)
  edge_enhanced_im : List (List ℝ)
  edge_map : ImageMap ℝ

/-- Statement sx = ndimage.sobel(aia_smap.data, 0, mode constant). -/
def stepSx (st : EdgeState) : EdgeState := { st with sx := sobelArr0 st.aia_smap.data }

/-- Statement sy = ndimage.sobel(aia_smap.data, 1, mode constant). -/
def stepSy (st : EdgeState) : EdgeState := { st with sy := sobelArr1 st.aia_smap.data }

/-- Statement edge_enhanced_im = np.hypot(sx, sy). -/
noncomputable def stepHypot (st : EdgeState) : EdgeState :=
  { st with edge_enhanced_im := hypotArr st.sx st.sy }

/-- Statement edge_map = Map(edge_enhanced_im, aia_smap.meta). -/
def stepMap (st : EdgeState) : EdgeState :=
  { st with edge_map := mkMap st.edge_enhanced_im st.aia_smap.meta }

/-- The four statements of the edge-enhancement script, in order. -/
noncomputable def runEdgeScript (st : EdgeState) : EdgeState :=
  stepMap (stepHypot (stepSy (stepSx st)))

/-- World coordinate of a pixel coordinate p on one axis of the linear
transform world = CRVAL + CDELT * (p - CRPIX). -/
def worldOf {α : Type} [Field α] (crpix crval cdelt p : α) : α :=
  crval + cdelt * (p - crpix)

/-- Pixel coordinate of a world coordinate x on one axis, the inverse of
worldOf when CDELT is nonzero. -/
def pixOf {α : Type} [Field α] (crpix crval cdelt x : α) : α :=
  crpix + (x - crval) / cdelt

/-- Modelled from the spec: submap, library code not in src.  The two
physical corners are sent through the world-to-pixel transform of each axis,
the resulting pixel rectangle is clipped to the array bounds, the data is
sliced to it, and the reference pixels of the header are shifted by the
lower slice corner.  It fails when a needed header field is missing or
non-numeric, when a step size is zero, when the top-right corner is not
strictly greater than the bottom-left one on both axes, or when the clipped
rectangle is empty. -/
def submap {α : Type} [LinearOrderedField α] [FloorRing α]
    (M : ImageMap α) (bl tr : α × α) : Option (ImageMap α) :=
  match getNum M.meta "CRPIX1", getNum M.meta "CRVAL1", getNum M.meta "CDELT1",
        getNum M.meta "CRPIX2", getNum M.meta "CRVAL2", getNum M.meta "CDELT2" with
  | some px, some vx, some dx, some py, some vy, some dy =>
    if dx = 0 ∨ dy = 0 ∨ ¬ bl.1 < tr.1 ∨ ¬ bl.2 < tr.2 then none
    else
      let j1 : ℤ := max 0 ⌊pixOf px vx dx bl.1⌋
      let j2 : ℤ := min ((ncols M.data : ℤ) - 1) ⌈pixOf px vx dx tr.1⌉
      let i1 : ℤ := max 0 ⌊pixOf py vy dy bl.2⌋
      let i2 : ℤ := min ((M.data.length : ℤ) - 1) ⌈pixOf py vy dy tr.2⌉
      if i1 ≤ i2 ∧ j1 ≤ j2 then
        some { data := ((M.data.drop i1.toNat).take (i2 - i1 + 1).toNat).map
                 fun r => (r.drop j1.toNat).take (j2 - j1 + 1).toNat,
               meta := mset (mset M.meta "CRPIX1" (Scalar.num (px - (j1 : α))))
                 "CRPIX2" (Scalar.num (py - (i1 : α))) }
      else none
  | _, _, _, _, _, _ => none

/-- Concrete rational header used by the submap witness: reference pixel 0,
reference value 0 and step size 1 on both axes. -/
def qHeader : Header ℚ := fun k =>
  if k = "CRPIX1" then some (Scalar.num 0)
  else if k = "CRVAL1" then some (Scalar.num 0)
  else if k = "CDELT1" then some (Scalar.num 1)
  else if k = "CRPIX2" then some (Scalar.num 0)
  else if k = "CRVAL2" then some (Scalar.num 0)
  else if k = "CDELT2" then some (Scalar.num 1)
  else none

/-- Concrete rational 4 x 4 map used by the submap witness. -/
def qMap : ImageMap ℚ := ⟨List.replicate 4 (List.replicate 4 0), qHeader⟩

/-- Concrete real map used by witnesses of the edge-enhancement claims. -/
noncomputable def aWit : ImageMap ℝ := ⟨[[1]], mWit⟩

theorem mset_apply_ne {α : Type} (m : Header α) {k q : String} (v : Scalar α)
    (h : q ≠ k) : mset m k v q = m q := by
  simp [mset, h]

theorem mset_apply_same {α : Type} (m : Header α) (k : String) (v : Scalar α) :
    mset m k v k = some v := by
  simp [mset]

theorem getNum_congr {α : Type} {m m' : Header α} {k : String}
    (h : m' k = m k) : getNum m' k = getNum m k := by
  unfold getNum
  rw [h]

theorem mset_comm {α : Type} (m : Header α) {a b : String} (va vb : Scalar α)
    (h : a ≠ b) : mset (mset m a va) b vb = mset (mset m b vb) a va := by
  funext q
  unfold mset
  by_cases hb : q = b <;> by_cases ha : q = a
  · exact absurd (ha.symm.trans hb) h
  · simp [ha, hb, Ne.symm h]
  · simp [ha, hb, h]
  · simp [ha, hb]

theorem setCUNIT2_apply_ne (m : Header ℝ) {q : String} (h : q ≠ "CUNIT2") :
    setCUNIT2 m q = m q := by
  simp [setCUNIT2, mset, h]

theorem scaleCDELT2_apply_ne (m : Header ℝ) {q : String} (h : q ≠ "CDELT2") :
    scaleCDELT2 m q = m q := by
  unfold scaleCDELT2
  cases hr : getNum m "CDELT2" with
  | none => rfl
  | some d => exact mset_apply_ne m _ h

theorem negCDELT1_apply_ne (m : Header ℝ) {q : String} (h : q ≠ "CDELT1") :
    negCDELT1 m q = m q := by
  unfold negCDELT1
  cases hr : getNum m "CDELT1" with
  | none => rfl
  | some c => exact mset_apply_ne m _ h

theorem getNum_of_apply {α : Type} {m : Header α} {k : String} {x : α}
    (h : m k = some (Scalar.num x)) : getNum m k = some x := by
  unfold getNum
  rw [h]

theorem hmiCorrect_CUNIT2 (m : Header ℝ) :
    hmiCorrect m "CUNIT2" = some (Scalar.str "degree") := by
  unfold hmiCorrect
  rw [negCDELT1_apply_ne _ (by decide), scaleCDELT2_apply_ne _ (by decide)]
  exact mset_apply_same m _ _

theorem hmiCorrect_CDELT2 {m : Header ℝ} {d : ℝ}
    (h2 : m "CDELT2" = some (Scalar.num d)) :
    hmiCorrect m "CDELT2" = some (Scalar.num (180 / Real.pi * d)) := by
  unfold hmiCorrect
  rw [negCDELT1_apply_ne _ (by decide)]
  have e1 : getNum (setCUNIT2 m) "CDELT2" = some d := by
    rw [getNum_congr (setCUNIT2_apply_ne m (by decide))]
    exact getNum_of_apply h2
  unfold scaleCDELT2
  rw [e1]
  exact mset_apply_same _ _ _

theorem hmiCorrect_CDELT1 {m : Header ℝ} {c : ℝ}
    (h1 : m "CDELT1" = some (Scalar.num c)) :
    hmiCorrect m "CDELT1" = some (Scalar.num (c * (-1))) := by
  unfold hmiCorrect
  have e0 : scaleCDELT2 (setCUNIT2 m) "CDELT1" = m "CDELT1" := by
    rw [scaleCDELT2_apply_ne _ (by decide), setCUNIT2_apply_ne m (by decide)]
  have e1 : getNum (scaleCDELT2 (setCUNIT2 m)) "CDELT1" = some c := by
    rw [getNum_congr e0]
    exact getNum_of_apply h1
  unfold negCDELT1
  rw [e1]
  exact mset_apply_same _ _ _

theorem hmiCorrect_apply_ne (m : Header ℝ) {q : String}
    (hu : q ≠ "CUNIT2") (hd2 : q ≠ "CDELT2") (hd1 : q ≠ "CDELT1") :
    hmiCorrect m q = m q := by
  unfold hmiCorrect
  rw [negCDELT1_apply_ne _ hd1, scaleCDELT2_apply_ne _ hd2,
    setCUNIT2_apply_ne m hu]

/-- C1: applying the sine-latitude correction once to a header holding
CDELT2 = d and CDELT1 = c yields CDELT2 = 180 / pi * d, CDELT1 = -c and
CUNIT2 = "degree". -/
theorem hmiCorrect_values (m : Header ℝ) (d c : ℝ)
    (h2 : m "CDELT2" = some (Scalar.num d))
    (h1 : m "CDELT1" = some (Scalar.num c)) :
    hmiCorrect m "CDELT2" = some (Scalar.num (180 / Real.pi * d)) ∧
    hmiCorrect m "CDELT1" = some (Scalar.num (-c)) ∧
    hmiCorrect m "CUNIT2" = some (Scalar.str "degree") := by
  refine ⟨hmiCorrect_CDELT2 h2, ?_, hmiCorrect_CUNIT2 m⟩
  rw [hmiCorrect_CDELT1 h1, mul_neg_one]

/-- C1 witness: the correction on the concrete header with CDELT2 = 1 and
CDELT1 = 2. -/
theorem hmiCorrect_values_witness :
    hmiCorrect mWit "CDELT2" = some (Scalar.num (180 / Real.pi * 1)) ∧
    hmiCorrect mWit "CDELT1" = some (Scalar.num (-2)) ∧
    hmiCorrect mWit "CUNIT2" = some (Scalar.str "degree") :=
  hmiCorrect_values mWit 1 2 (by simp [mWit]) (by simp [mWit])

theorem comm_set_scale (m : Header ℝ) :
    scaleCDELT2 (setCUNIT2 m) = setCUNIT2 (scaleCDELT2 m) := by
  have e : getNum (setCUNIT2 m) "CDELT2" = getNum m "CDELT2" :=
    getNum_congr (setCUNIT2_apply_ne m (by decide))
  unfold scaleCDELT2
  rw [e]
  cases hr : getNum m "CDELT2" with
  | none => rfl
  | some d => exact mset_comm m _ _ (by decide)

theorem comm_set_neg (m : Header ℝ) :
    negCDELT1 (setCUNIT2 m) = setCUNIT2 (negCDELT1 m) := by
  have e : getNum (setCUNIT2 m) "CDELT1" = getNum m "CDELT1" :=
    getNum_congr (setCUNIT2_apply_ne m (by decide))
  unfold negCDELT1
  rw [e]
  cases hr : getNum m "CDELT1" with
  | none => rfl
  | some c => exact mset_comm m _ _ (by decide)

theorem comm_scale_neg (m : Header ℝ) :
    negCDELT1 (scaleCDELT2 m) = scaleCDELT2 (negCDELT1 m) := by
  cases h2 : getNum m "CDELT2" with
  | none =>
    have hs : scaleCDELT2 m = m := by unfold scaleCDELT2; rw [h2]
    rw [hs]
    cases h1 : getNum m "CDELT1" with
    | none =>
      have hn : negCDELT1 m = m := by unfold negCDELT1; rw [h1]
      rw [hn, hs]
    | some c =>
      have hn : negCDELT1 m = mset m "CDELT1" (Scalar.num (c * (-1))) := by
        unfold negCDELT1; rw [h1]
      rw [hn]
      have e2 : getNum (mset m "CDELT1" (Scalar.num (c * (-1)))) "CDELT2"
          = getNum m "CDELT2" := getNum_congr (mset_apply_ne m _ (by decide))
      unfold scaleCDELT2
      rw [e2, h2]
  | some d =>
    have hs : scaleCDELT2 m = mset m "CDELT2" (Scalar.num (180 / Real.pi * d)) := by
      unfold scaleCDELT2; rw [h2]
    rw [hs]
    cases h1 : getNum m "CDELT1" with
    | none =>
      have hn : negCDELT1 m = m := by unfold negCDELT1; rw [h1]
      rw [hn, hs]
      have e1 : getNum (mset m "CDELT2" (Scalar.num (180 / Real.pi * d))) "CDELT1"
          = getNum m "CDELT1" := getNum_congr (mset_apply_ne m _ (by decide))
      unfold negCDELT1
      rw [e1, h1]
    | some c =>
      have hn : negCDELT1 m = mset m "CDELT1" (Scalar.num (c * (-1))) := by
        unfold negCDELT1; rw [h1]
      rw [hn]
      have e1 : getNum (mset m "CDELT2" (Scalar.num (180 / Real.pi * d))) "CDELT1"
          = getNum m "CDELT1" := getNum_congr (mset_apply_ne m _ (by decide))
      have e2 : getNum (mset m "CDELT1" (Scalar.num (c * (-1)))) "CDELT2"
          = getNum m "CDELT2" := getNum_congr (mset_apply_ne m _ (by decide))
      unfold negCDELT1 scaleCDELT2
      rw [e1, h1, e2, h2]
      exact mset_comm m _ _ (by decide)

/-- C8: the three HMI header corrections touch pairwise distinct keys, so the
five other application orders all produce the same header as the order of the
script, negCDELT1 after scaleCDELT2 after setCUNIT2. -/
theorem hmi_corrections_order_independent (m : Header ℝ) :
    negCDELT1 (scaleCDELT2 (setCUNIT2 m)) = negCDELT1 (setCUNIT2 (scaleCDELT2 m)) ∧
    negCDELT1 (scaleCDELT2 (setCUNIT2 m)) = scaleCDELT2 (negCDELT1 (setCUNIT2 m)) ∧
    negCDELT1 (scaleCDELT2 (setCUNIT2 m)) = scaleCDELT2 (setCUNIT2 (negCDELT1 m)) ∧
    negCDELT1 (scaleCDELT2 (setCUNIT2 m)) = setCUNIT2 (negCDELT1 (scaleCDELT2 m)) ∧
    negCDELT1 (scaleCDELT2 (setCUNIT2 m)) = setCUNIT2 (scaleCDELT2 (negCDELT1 m)) := by
  refine ⟨by rw [comm_set_scale], ?_, ?_, ?_, ?_⟩
  · rw [comm_scale_neg]
  · rw [comm_scale_neg, comm_set_neg]
  · rw [comm_set_scale, comm_set_neg]
  · rw [comm_set_scale, comm_set_neg, comm_scale_neg]

theorem foldl_lastVal {α : Type} (k : String) :
    ∀ (ov : List (String × Scalar α)) (init : Option (Scalar α)),
      ov.foldl (fun acc kv => if kv.1 = k then some kv.2 else acc) init
        = match lastVal ov k with
          | some v => some v
          | none => init := by
  intro ov
  induction ov with
  | nil => intro init; rfl
  | cons a t ih =>
    intro init
    have hl : lastVal (a :: t) k
        = t.foldl (fun acc kv => if kv.1 = k then some kv.2 else acc)
            (if a.1 = k then some a.2 else none) := rfl
    rw [List.foldl_cons, ih, hl, ih]
    by_cases hk : a.1 = k
    · simp only [hk, if_pos rfl]
      cases lastVal t k <;> rfl
    · simp only [if_neg hk]
      cases lastVal t k <;> rfl

theorem metadata_adjust_apply {α : Type} :
    ∀ (ov : List (String × Scalar α)) (m : Header α) (k : String),
      metadata_adjust ov m k
        = match lastVal ov k with
          | some v => some v
          | none => m k := by
  intro ov
  induction ov with
  | nil => intro m k; rfl
  | cons a t ih =>
    intro m k
    have h1 : metadata_adjust (a :: t) m = metadata_adjust t (mset m a.1 a.2) := rfl
    have hl : lastVal (a :: t) k
        = t.foldl (fun acc kv => if kv.1 = k then some kv.2 else acc)
            (if a.1 = k then some a.2 else none) := rfl
    rw [h1, ih, hl, foldl_lastVal]
    cases lastVal t k with
    | some v => rfl
    | none =>
      by_cases hk : a.1 = k
      · simp [mset, hk.symm]
      · have : ¬ k = a.1 := fun hq => hk hq.symm
        simp [mset, this, hk]

/-- C3 counterexample: reapplying the sine-latitude correction does not leave
the once-corrected header unchanged; on the concrete header with CDELT2 = 1
and CDELT1 = 2 the second application differs from the first. -/
theorem hmiCorrect_not_idempotent :
    hmiCorrect (hmiCorrect mWit) ≠ hmiCorrect mWit := by
  intro h
  have h1 : mWit "CDELT1" = some (Scalar.num 2) := by simp [mWit]
  have e1 := hmiCorrect_CDELT1 h1
  have e2 := hmiCorrect_CDELT1 e1
  have hx : some (Scalar.num ((2 : ℝ) * (-1) * (-1))) = some (Scalar.num ((2 : ℝ) * (-1))) := by
    rw [← e2, ← e1]
    exact congrFun h "CDELT1"
  simp only [Option.some.injEq, Scalar.num.injEq] at hx
  norm_num at hx

/-- C3 amended: the override-set adjuster metadata_adjust, which writes fixed
new values, is idempotent; the sine-latitude correction of the script,
however, reads the current values, so a second application multiplies CDELT2
by 180 / pi once more and restores the original sign of CDELT1. -/
theorem metadata_adjust_idem_and_correction_twice
    (ov : List (String × Scalar ℝ)) (m0 : Header ℝ)
    (m : Header ℝ) (d c : ℝ)
    (h2 : m "CDELT2" = some (Scalar.num d))
    (h1 : m "CDELT1" = some (Scalar.num c)) :
    metadata_adjust ov (metadata_adjust ov m0) = metadata_adjust ov m0 ∧
    hmiCorrect (hmiCorrect m) "CDELT2"
      = some (Scalar.num (180 / Real.pi * (180 / Real.pi * d))) ∧
    hmiCorrect (hmiCorrect m) "CDELT1" = some (Scalar.num c) := by
  refine ⟨?_, ?_, ?_⟩
  · funext k
    rw [metadata_adjust_apply, metadata_adjust_apply]
    cases hl : lastVal ov k with
    | some v => rfl
    | none => rfl
  · exact hmiCorrect_CDELT2 (hmiCorrect_CDELT2 h2)
  · rw [hmiCorrect_CDELT1 (hmiCorrect_CDELT1 h1)]
    norm_num

/-- C3 amended witness: a concrete override list and the concrete header with
CDELT2 = 1 and CDELT1 = 2. -/
theorem metadata_adjust_idem_and_correction_twice_witness :
    metadata_adjust [("CUNIT2", Scalar.str "degree")]
        (metadata_adjust [("CUNIT2", Scalar.str "degree")] mWit)
      = metadata_adjust [("CUNIT2", Scalar.str "degree")] mWit ∧
    hmiCorrect (hmiCorrect mWit) "CDELT2"
      = some (Scalar.num (180 / Real.pi * (180 / Real.pi * 1))) ∧
    hmiCorrect (hmiCorrect mWit) "CDELT1" = some (Scalar.num 2) :=
  metadata_adjust_idem_and_correction_twice
    [("CUNIT2", Scalar.str "degree")] mWit mWit 1 2
    (by simp [mWit]) (by simp [mWit])

/-- C4 counterexample: the correction statements of the HMI script mutate the
one map in scope, so after them no unmodified original remains; on the
concrete map the state of syn_map after differs from the state before. -/
theorem runHmiAdjust_not_pure : runHmiAdjust aWit ≠ aWit := by
  intro h
  have hm : hmiCorrect mWit = mWit := congrArg ImageMap.meta h
  have h1 : mWit "CDELT1" = some (Scalar.num 2) := by simp [mWit]
  have e1 := hmiCorrect_CDELT1 h1
  rw [hm, h1] at e1
  simp only [Option.some.injEq, Scalar.num.injEq] at e1
  norm_num at e1

/-- C4 amended: the adjustment updates the header of the map in place: the
data array is untouched, every key other than the three corrected ones keeps
its value, and CUNIT2 now holds the unit string degree. -/
theorem runHmiAdjust_inplace (M : ImageMap ℝ) (k : String)
    (hk1 : k ≠ "CUNIT2") (hk2 : k ≠ "CDELT2") (hk3 : k ≠ "CDELT1") :
    (runHmiAdjust M).data = M.data ∧
    (runHmiAdjust M).meta k = M.meta k ∧
    (runHmiAdjust M).meta "CUNIT2" = some (Scalar.str "degree") :=
  ⟨rfl, hmiCorrect_apply_ne M.meta hk1 hk2 hk3, hmiCorrect_CUNIT2 M.meta⟩

/-- C4 amended witness: the concrete map and the untouched key CRPIX1. -/
theorem runHmiAdjust_inplace_witness :
    (runHmiAdjust aWit).data = aWit.data ∧
    (runHmiAdjust aWit).meta "CRPIX1" = aWit.meta "CRPIX1" ∧
    (runHmiAdjust aWit).meta "CUNIT2" = some (Scalar.str "degree") :=
  runHmiAdjust_inplace aWit "CRPIX1" (by decide) (by decide) (by decide)

theorem edgeEnhance_eq_map (a : List (List ℝ)) :
    edgeEnhance a = (List.range a.length).map
      fun i : ℕ => (List.range (ncols a)).map
        fun j : ℕ => hypotR (sobel0at a (i : ℤ) (j : ℤ)) (sobel1at a (i : ℤ) (j : ℤ)) := by
  have hinner : ∀ i : ℕ, List.zipWith hypotR
      ((List.range (ncols a)).map fun j : ℕ => sobel0at a (i : ℤ) (j : ℤ))
      ((List.range (ncols a)).map fun j : ℕ => sobel1at a (i : ℤ) (j : ℤ))
      = (List.range (ncols a)).map
          fun j : ℕ => hypotR (sobel0at a (i : ℤ) (j : ℤ)) (sobel1at a (i : ℤ) (j : ℤ)) := by
    intro i
    rw [List.zipWith_map, List.zipWith_same]
  unfold edgeEnhance hypotArr sobelArr0 sobelArr1
  rw [List.zipWith_map, List.zipWith_same]
  exact List.map_congr_left fun i _ => hinner i

theorem getC_edgeEnhance (a : List (List ℝ)) (i j : ℤ)
    (hi0 : 0 ≤ i) (hi : i < (a.length : ℤ))
    (hj0 : 0 ≤ j) (hj : j < (ncols a : ℤ)) :
    getC (edgeEnhance a) i j = hypotR (sobel0at a i j) (sobel1at a i j) := by
  unfold getC
  rw [if_pos ⟨hi0, hj0⟩, edgeEnhance_eq_map]
  simp only [List.getD_eq_getElem?_getD]
  rw [List.getElem?_map, List.getElem?_range ((Int.toNat_lt hi0).mpr hi)]
  simp only [Option.map_some', Option.getD_some]
  rw [List.getElem?_map, List.getElem?_range ((Int.toNat_lt hj0).mpr hj)]
  simp only [Option.map_some', Option.getD_some]
  rw [Int.toNat_of_nonneg hi0, Int.toNat_of_nonneg hj0]

theorem edgeEnhance_shape (a : List (List ℝ)) :
    shape (edgeEnhance a) = shape a := by
  cases a with
  | nil => rfl
  | cons r t =>
    rw [edgeEnhance_eq_map]
    simp [shape, ncols, List.range_succ_eq_map]

/-- C5: the edge-enhancement output has the shape of its input array and
every entry, being a Euclidean norm, is non-negative. -/
theorem edgeEnhance_shape_and_nonneg (a : List (List ℝ)) :
    shape (edgeEnhance a) = shape a ∧
    (edgeEnhance a).Forall fun r => r.Forall fun x => 0 ≤ x := by
  refine ⟨edgeEnhance_shape a, ?_⟩
  rw [edgeEnhance_eq_map, List.forall_iff_forall_mem]
  intro r hr
  obtain ⟨i, _, rfl⟩ := List.mem_map.mp hr
  rw [List.forall_iff_forall_mem]
  intro x hx
  obtain ⟨j, _, rfl⟩ := List.mem_map.mp hx
  exact Real.sqrt_nonneg _

/-- C2 counterexample: on the constant one-valued 1 x 2 array the filter is
not zero everywhere; zero padding makes the boundary pixel (0, 1) nonzero. -/
theorem edgeEnhance_const_not_all_zero :
    getC (edgeEnhance [[(1 : ℝ), 1]]) 0 1 ≠ 0 := by
  rw [getC_edgeEnhance [[(1 : ℝ), 1]] 0 1 (by decide) (by decide) (by decide) (by decide)]
  have s0 : sobel0at [[(1 : ℝ), 1]] 0 1 = 0 := by
    have gA : getC [[(1 : ℝ), 1]] (0 + 1) (1 - 1) = 0 := rfl
    have gB : getC [[(1 : ℝ), 1]] (0 - 1) (1 - 1) = 0 := rfl
    have gC : getC [[(1 : ℝ), 1]] (0 + 1) 1 = 0 := rfl
    have gD : getC [[(1 : ℝ), 1]] (0 - 1) 1 = 0 := rfl
    have gE : getC [[(1 : ℝ), 1]] (0 + 1) (1 + 1) = 0 := rfl
    have gF : getC [[(1 : ℝ), 1]] (0 - 1) (1 + 1) = 0 := rfl
    unfold sobel0at
    rw [gA, gB, gC, gD, gE, gF]
    ring
  have s1 : sobel1at [[(1 : ℝ), 1]] 0 1 = -2 := by
    have gA : getC [[(1 : ℝ), 1]] (0 - 1) (1 + 1) = 0 := rfl
    have gB : getC [[(1 : ℝ), 1]] (0 - 1) (1 - 1) = 0 := rfl
    have gC : getC [[(1 : ℝ), 1]] 0 (1 + 1) = 0 := rfl
    have gD : getC [[(1 : ℝ), 1]] 0 (1 - 1) = 1 := rfl
    have gE : getC [[(1 : ℝ), 1]] (0 + 1) (1 + 1) = 0 := rfl
    have gF : getC [[(1 : ℝ), 1]] (0 + 1) (1 - 1) = 0 := rfl
    unfold sobel1at
    rw [gA, gB, gC, gD, gE, gF]
    ring
  rw [s0, s1]
  unfold hypotR
  have hpos : (0 : ℝ) < Real.sqrt ((0 : ℝ) ^ 2 + (-2 : ℝ) ^ 2) :=
    Real.sqrt_pos.mpr (by norm_num)
  exact hpos.ne'

theorem getC_replicate {α : Type} [Zero α] (mr nr : ℕ) (c : α) (i j : ℤ)
    (hi0 : 0 ≤ i) (hi : i < (mr : ℤ)) (hj0 : 0 ≤ j) (hj : j < (nr : ℤ)) :
    getC (List.replicate mr (List.replicate nr c)) i j = c := by
  unfold getC
  rw [if_pos ⟨hi0, hj0⟩]
  simp only [List.getD_eq_getElem?_getD]
  rw [List.getElem?_replicate_of_lt ((Int.toNat_lt hi0).mpr hi)]
  simp only [Option.getD_some]
  rw [List.getElem?_replicate_of_lt ((Int.toNat_lt hj0).mpr hj)]
  rfl

/-- C2 amended: on a constant-valued m x n array the filter output is zero at
every interior pixel (a pixel whose 3 x 3 neighbourhood stays in bounds);
boundary pixels may be nonzero because of the zero padding, and the
counterexample shows a boundary pixel where the output is nonzero. -/
theorem edgeEnhance_const_interior_zero (mr nr : ℕ) (c : ℝ) (i j : ℕ)
    (hi1 : 1 ≤ i) (hi2 : i + 1 < mr) (hj1 : 1 ≤ j) (hj2 : j + 1 < nr) :
    getC (edgeEnhance (List.replicate mr (List.replicate nr c))) (i : ℤ) (j : ℤ) = 0 := by
  have hlen : (List.replicate mr (List.replicate nr c)).length = mr := List.length_replicate _ _
  have hnc : ncols (List.replicate mr (List.replicate nr c)) = nr := by
    obtain ⟨m, rfl⟩ : ∃ m, mr = m + 1 := ⟨mr - 1, by omega⟩
    simp [ncols, List.replicate_succ]
  have hg : ∀ x y : ℤ, 0 ≤ x → x < (mr : ℤ) → 0 ≤ y → y < (nr : ℤ) →
      getC (List.replicate mr (List.replicate nr c)) x y = c :=
    fun x y hx0 hx hy0 hy => getC_replicate mr nr c x y hx0 hx hy0 hy
  rw [getC_edgeEnhance _ _ _ (by omega) (by rw [hlen]; omega) (by omega)
    (by rw [hnc]; omega)]
  have e0 : sobel0at (List.replicate mr (List.replicate nr c)) (i : ℤ) (j : ℤ) = 0 := by
    unfold sobel0at
    rw [hg (↑i + 1) (↑j - 1) (by omega) (by omega) (by omega) (by omega),
      hg (↑i - 1) (↑j - 1) (by omega) (by omega) (by omega) (by omega),
      hg (↑i + 1) ↑j (by omega) (by omega) (by omega) (by omega),
      hg (↑i - 1) ↑j (by omega) (by omega) (by omega) (by omega),
      hg (↑i + 1) (↑j + 1) (by omega) (by omega) (by omega) (by omega),
      hg (↑i - 1) (↑j + 1) (by omega) (by omega) (by omega) (by omega)]
    ring
  have e1 : sobel1at (List.replicate mr (List.replicate nr c)) (i : ℤ) (j : ℤ) = 0 := by
    unfold sobel1at
    rw [hg (↑i - 1) (↑j + 1) (by omega) (by omega) (by omega) (by omega),
      hg (↑i - 1) (↑j - 1) (by omega) (by omega) (by omega) (by omega),
      hg ↑i (↑j + 1) (by omega) (by omega) (by omega) (by omega),
      hg ↑i (↑j - 1) (by omega) (by omega) (by omega) (by omega),
      hg (↑i + 1) (↑j + 1) (by omega) (by omega) (by omega) (by omega),
      hg (↑i + 1) (↑j - 1) (by omega) (by omega) (by omega) (by omega)]
    ring
  rw [e0, e1]
  unfold hypotR
  norm_num

/-- C2 amended witness: the 3 x 3 constant array of fives at its centre. -/
theorem edgeEnhance_const_interior_zero_witness :
    getC (edgeEnhance (List.replicate 3 (List.replicate 3 (5 : ℝ)))) ((1 : ℕ) : ℤ) ((1 : ℕ) : ℤ) = 0 :=
  edgeEnhance_const_interior_zero 3 3 5 1 1 (by decide) (by decide) (by decide) (by decide)

/-- C6: the edge map wraps the gradient-magnitude array with exactly the
header of the input map; its data has the shape of the input data and each
in-bounds pixel holds the Euclidean norm of the two directional Sobel
derivatives taken with zero-padded constant boundaries. -/
theorem edgeMapOf_spec (M : ImageMap ℝ) (i j : ℤ)
    (hi0 : 0 ≤ i) (hi : i < (M.data.length : ℤ))
    (hj0 : 0 ≤ j) (hj : j < (ncols M.data : ℤ)) :
    (edgeMapOf M).meta = M.meta ∧
    shape (edgeMapOf M).data = shape M.data ∧
    getC (edgeMapOf M).data i j
      = Real.sqrt (sobel0at M.data i j ^ 2 + sobel1at M.data i j ^ 2) := by
  refine ⟨rfl, edgeEnhance_shape M.data, ?_⟩
  show getC (edgeEnhance M.data) i j = _
  rw [getC_edgeEnhance M.data i j hi0 hi hj0 hj]
  rfl

/-- C6 witness: the concrete 1 x 1 map at pixel (0, 0). -/
theorem edgeMapOf_spec_witness :
    (edgeMapOf aWit).meta = aWit.meta ∧
    shape (edgeMapOf aWit).data = shape aWit.data ∧
    getC (edgeMapOf aWit).data 0 0
      = Real.sqrt (sobel0at aWit.data 0 0 ^ 2 + sobel1at aWit.data 0 0 ^ 2) :=
  edgeMapOf_spec aWit 0 0 (by decide) (by decide) (by decide) (by decide)

/-- C9: running the four statements of the edge-enhancement script leaves the
variable aia_smap, data array included, exactly as it was, while edge_map
receives the freshly built filter output with the header of the input. -/
theorem runEdgeScript_frame (st : EdgeState) :
    (runEdgeScript st).aia_smap = st.aia_smap ∧
    (runEdgeScript st).edge_map.data = edgeEnhance st.aia_smap.data ∧
    (runEdgeScript st).edge_map.meta = st.aia_smap.meta :=
  ⟨rfl, rfl, rfl⟩

/-- C10: combining the two Sobel passes with hypot is insensitive to the
order of the two arguments, since hypot is commutative pointwise. -/
theorem hypotArr_arg_order (a : List (List ℝ)) :
    hypotArr (sobelArr0 a) (sobelArr1 a) = hypotArr (sobelArr1 a) (sobelArr0 a) := by
  unfold hypotArr
  apply List.zipWith_comm_of_comm
  intro r s
  apply List.zipWith_comm_of_comm
  intro x y
  unfold hypotR
  rw [add_comm]

theorem pixOf_strict_mono {α : Type} [LinearOrderedField α]
    (crpix crval cdelt : α) (hd : 0 < cdelt) {x y : α} (hxy : x < y) :
    pixOf crpix crval cdelt x < pixOf crpix crval cdelt y := by
  unfold pixOf
  have h : (x - crval) / cdelt < (y - crval) / cdelt :=
    (div_lt_div_iff_of_pos_right hd).mpr (by linarith)
  linarith

theorem world_near {α : Type} [LinearOrderedField α]
    (crpix crval cdelt x : α) (hd : 0 < cdelt) (z : α)
    (h1 : pixOf crpix crval cdelt x - 1 ≤ z)
    (h2 : z ≤ pixOf crpix crval cdelt x + 1) :
    |worldOf crpix crval cdelt z - x| ≤ cdelt := by
  have hx : worldOf crpix crval cdelt (pixOf crpix crval cdelt x) = x := by
    unfold worldOf pixOf
    field_simp
    ring
  rw [← hx]
  have he : worldOf crpix crval cdelt z
      - worldOf crpix crval cdelt (pixOf crpix crval cdelt x)
      = cdelt * (z - pixOf crpix crval cdelt x) := by
    unfold worldOf
    ring
  rw [he, abs_mul, abs_of_pos hd]
  have hz : |z - pixOf crpix crval cdelt x| ≤ 1 :=
    abs_le.mpr ⟨by linarith, by linarith⟩
  calc cdelt * |z - pixOf crpix crval cdelt x| ≤ cdelt * 1 :=
        mul_le_mul_of_nonneg_left hz hd.le
    _ = cdelt := mul_one cdelt

theorem slice2_length {β : Type} (l : List (List β)) (i1 i2 : ℤ) (f : List β → List β)
    (h0 : 0 ≤ i1) (h12 : i1 ≤ i2) (h2 : i2 < (l.length : ℤ)) :
    (((l.drop i1.toNat).take (i2 - i1 + 1).toNat).map f).length = (i2 - i1 + 1).toNat := by
  simp only [List.length_map, List.length_take, List.length_drop]
  omega

theorem slice2_ncols {β : Type} (l : List (List β)) (nc : ℕ) (i1 i2 j1 j2 : ℤ)
    (hrect : ∀ r ∈ l, r.length = nc)
    (hi0 : 0 ≤ i1) (hi12 : i1 ≤ i2) (hi2 : i2 < (l.length : ℤ))
    (hj0 : 0 ≤ j1) (hj12 : j1 ≤ j2) (hj2 : j2 < (nc : ℤ)) :
    ncols (((l.drop i1.toNat).take (i2 - i1 + 1).toNat).map
      (fun r => (r.drop j1.toNat).take (j2 - j1 + 1).toNat)) = (j2 - j1 + 1).toNat := by
  have hlen : (((l.drop i1.toNat).take (i2 - i1 + 1).toNat).map
      (fun r => (r.drop j1.toNat).take (j2 - j1 + 1).toNat)).length = (i2 - i1 + 1).toNat :=
    slice2_length l i1 i2 _ hi0 hi12 hi2
  have h1 : ∀ r' ∈ ((l.drop i1.toNat).take (i2 - i1 + 1).toNat).map
      (fun r => (r.drop j1.toNat).take (j2 - j1 + 1).toNat), r'.length = (j2 - j1 + 1).toNat := by
    intro r' hr'
    obtain ⟨r, hr, rfl⟩ := List.mem_map.mp hr'
    have hrl : r ∈ l := List.mem_of_mem_drop (List.mem_of_mem_take hr)
    have hrlen := hrect r hrl
    simp only [List.length_take, List.length_drop, hrlen]
    omega
  unfold ncols
  cases hd : ((l.drop i1.toNat).take (i2 - i1 + 1).toNat).map
      (fun r => (r.drop j1.toNat).take (j2 - j1 + 1).toNat) with
  | nil =>
    rw [hd] at hlen
    simp only [List.length_nil] at hlen
    omega
  | cons r0 t0 =>
    have hmem : r0 ∈ ((l.drop i1.toNat).take (i2 - i1 + 1).toNat).map
        (fun r => (r.drop j1.toNat).take (j2 - j1 + 1).toNat) := by
      rw [hd]
      exact List.mem_cons_self r0 t0
    calc ((r0 :: t0).headD []).length = r0.length := rfl
      _ = (j2 - j1 + 1).toNat := h1 r0 hmem

/-- C7: for an in-bounds corner pair with the top-right corner strictly
greater than the bottom-left one on both axes, submap succeeds and returns a
map whose array shape is at most the input shape, whose header carries the
reference pixels shifted by the lower slice corner, and whose physical
bounding box matches the requested corners to within one pixel step on each
axis. -/
theorem submap_spec {α : Type} [LinearOrderedField α] [FloorRing α]
    (M : ImageMap α) (bl tr : α × α) (px vx dx py vy dy : α)
    (hpx : getNum M.meta "CRPIX1" = some px)
    (hvx : getNum M.meta "CRVAL1" = some vx)
    (hdx : getNum M.meta "CDELT1" = some dx)
    (hpy : getNum M.meta "CRPIX2" = some py)
    (hvy : getNum M.meta "CRVAL2" = some vy)
    (hdy : getNum M.meta "CDELT2" = some dy)
    (hdx0 : 0 < dx) (hdy0 : 0 < dy)
    (hblx : bl.1 < tr.1) (hbly : bl.2 < tr.2)
    (hx0 : 0 ≤ pixOf px vx dx bl.1)
    (hx1 : pixOf px vx dx tr.1 ≤ (ncols M.data : α) - 1)
    (hy0 : 0 ≤ pixOf py vy dy bl.2)
    (hy1 : pixOf py vy dy tr.2 ≤ (M.data.length : α) - 1)
    (hrect : ∀ r ∈ M.data, r.length = ncols M.data) :
    ∃ S : ImageMap α, submap M bl tr = some S ∧
      S.data.length ≤ M.data.length ∧
      ncols S.data ≤ ncols M.data ∧
      getNum S.meta "CRPIX1" = some (px - (⌊pixOf px vx dx bl.1⌋ : α)) ∧
      getNum S.meta "CRPIX2" = some (py - (⌊pixOf py vy dy bl.2⌋ : α)) ∧
      |worldOf (px - (⌊pixOf px vx dx bl.1⌋ : α)) vx dx 0 - bl.1| ≤ dx ∧
      |worldOf (px - (⌊pixOf px vx dx bl.1⌋ : α)) vx dx ((ncols S.data : α) - 1) - tr.1| ≤ dx ∧
      |worldOf (py - (⌊pixOf py vy dy bl.2⌋ : α)) vy dy 0 - bl.2| ≤ dy ∧
      |worldOf (py - (⌊pixOf py vy dy bl.2⌋ : α)) vy dy ((S.data.length : α) - 1) - tr.2| ≤ dy := by
  have hmx : pixOf px vx dx bl.1 < pixOf px vx dx tr.1 :=
    pixOf_strict_mono px vx dx hdx0 hblx
  have hmy : pixOf py vy dy bl.2 < pixOf py vy dy tr.2 :=
    pixOf_strict_mono py vy dy hdy0 hbly
  have hj1 : (0 : ℤ) ≤ ⌊pixOf px vx dx bl.1⌋ := Int.le_floor.mpr (by push_cast; exact hx0)
  have hj2 : ⌈pixOf px vx dx tr.1⌉ ≤ (ncols M.data : ℤ) - 1 :=
    Int.ceil_le.mpr (by push_cast; exact hx1)
  have hi1 : (0 : ℤ) ≤ ⌊pixOf py vy dy bl.2⌋ := Int.le_floor.mpr (by push_cast; exact hy0)
  have hi2 : ⌈pixOf py vy dy tr.2⌉ ≤ (M.data.length : ℤ) - 1 :=
    Int.ceil_le.mpr (by push_cast; exact hy1)
  have hj12 : ⌊pixOf px vx dx bl.1⌋ ≤ ⌈pixOf px vx dx tr.1⌉ := by
    have h : (⌊pixOf px vx dx bl.1⌋ : α) ≤ (⌈pixOf px vx dx tr.1⌉ : α) :=
      le_trans (Int.floor_le _) (le_trans hmx.le (Int.le_ceil _))
    exact_mod_cast h
  have hi12 : ⌊pixOf py vy dy bl.2⌋ ≤ ⌈pixOf py vy dy tr.2⌉ := by
    have h : (⌊pixOf py vy dy bl.2⌋ : α) ≤ (⌈pixOf py vy dy tr.2⌉ : α) :=
      le_trans (Int.floor_le _) (le_trans hmy.le (Int.le_ceil _))
    exact_mod_cast h
  have hj2' : ⌈pixOf px vx dx tr.1⌉ < (ncols M.data : ℤ) := by omega
  have hi2' : ⌈pixOf py vy dy tr.2⌉ < ((M.data.length : ℕ) : ℤ) := by omega
  have hrows : (((M.data.drop (⌊pixOf py vy dy bl.2⌋).toNat).take
      (⌈pixOf py vy dy tr.2⌉ - ⌊pixOf py vy dy bl.2⌋ + 1).toNat).map
      (fun r => (r.drop (⌊pixOf px vx dx bl.1⌋).toNat).take
        (⌈pixOf px vx dx tr.1⌉ - ⌊pixOf px vx dx bl.1⌋ + 1).toNat)).length
      = (⌈pixOf py vy dy tr.2⌉ - ⌊pixOf py vy dy bl.2⌋ + 1).toNat :=
    slice2_length M.data _ _ _ hi1 hi12 hi2'
  have hcolsn : ncols (((M.data.drop (⌊pixOf py vy dy bl.2⌋).toNat).take
      (⌈pixOf py vy dy tr.2⌉ - ⌊pixOf py vy dy bl.2⌋ + 1).toNat).map
      (fun r => (r.drop (⌊pixOf px vx dx bl.1⌋).toNat).take
        (⌈pixOf px vx dx tr.1⌉ - ⌊pixOf px vx dx bl.1⌋ + 1).toNat))
      = (⌈pixOf px vx dx tr.1⌉ - ⌊pixOf px vx dx bl.1⌋ + 1).toNat :=
    slice2_ncols M.data (ncols M.data) _ _ _ _ hrect hi1 hi12 hi2' hj1 hj12 hj2'
  refine ⟨⟨((M.data.drop (⌊pixOf py vy dy bl.2⌋).toNat).take
        (⌈pixOf py vy dy tr.2⌉ - ⌊pixOf py vy dy bl.2⌋ + 1).toNat).map
        (fun r => (r.drop (⌊pixOf px vx dx bl.1⌋).toNat).take
          (⌈pixOf px vx dx tr.1⌉ - ⌊pixOf px vx dx bl.1⌋ + 1).toNat),
      mset (mset M.meta "CRPIX1" (Scalar.num (px - (⌊pixOf px vx dx bl.1⌋ : α))))
        "CRPIX2" (Scalar.num (py - (⌊pixOf py vy dy bl.2⌋ : α)))⟩,
    ?_, ?_, ?_, ?_, ?_, ?_, ?_, ?_, ?_⟩
  · simp only [submap, hpx, hvx, hdx, hpy, hvy, hdy]
    rw [if_neg (by push_neg; exact ⟨hdx0.ne', hdy0.ne', hblx, hbly⟩)]
    rw [max_eq_right hi1, max_eq_right hj1, min_eq_right hi2, min_eq_right hj2]
    rw [if_pos ⟨hi12, hj12⟩]
  · rw [hrows]
    omega
  · rw [hcolsn]
    omega
  · show getNum (mset (mset M.meta "CRPIX1"
        (Scalar.num (px - (⌊pixOf px vx dx bl.1⌋ : α)))) "CRPIX2"
        (Scalar.num (py - (⌊pixOf py vy dy bl.2⌋ : α)))) "CRPIX1" = _
    rw [getNum_congr (mset_apply_ne _ _ (by decide))]
    exact getNum_of_apply (mset_apply_same _ _ _)
  · show getNum (mset (mset M.meta "CRPIX1"
        (Scalar.num (px - (⌊pixOf px vx dx bl.1⌋ : α)))) "CRPIX2"
        (Scalar.num (py - (⌊pixOf py vy dy bl.2⌋ : α)))) "CRPIX2" = _
    exact getNum_of_apply (mset_apply_same _ _ _)
  · have he : worldOf (px - (⌊pixOf px vx dx bl.1⌋ : α)) vx dx 0
        = worldOf px vx dx (⌊pixOf px vx dx bl.1⌋ : α) := by
      unfold worldOf
      ring
    rw [he]
    exact world_near px vx dx bl.1 hdx0 _
      (by linarith [Int.sub_one_lt_floor (pixOf px vx dx bl.1)])
      (by linarith [Int.floor_le (pixOf px vx dx bl.1)])
  · rw [hcolsn]
    have hnn : (0 : ℤ) ≤ ⌈pixOf px vx dx tr.1⌉ - ⌊pixOf px vx dx bl.1⌋ + 1 := by omega
    have hc : (((⌈pixOf px vx dx tr.1⌉ - ⌊pixOf px vx dx bl.1⌋ + 1).toNat : ℕ) : α)
        = (⌈pixOf px vx dx tr.1⌉ : α) - (⌊pixOf px vx dx bl.1⌋ : α) + 1 := by
      have h := Int.toNat_of_nonneg hnn
      exact_mod_cast congrArg (fun z : ℤ => (z : α)) h
    rw [hc]
    have he : worldOf (px - (⌊pixOf px vx dx bl.1⌋ : α)) vx dx
        ((⌈pixOf px vx dx tr.1⌉ : α) - (⌊pixOf px vx dx bl.1⌋ : α) + 1 - 1)
        = worldOf px vx dx (⌈pixOf px vx dx tr.1⌉ : α) := by
      unfold worldOf
      ring
    rw [he]
    exact world_near px vx dx tr.1 hdx0 _
      (by linarith [Int.le_ceil (pixOf px vx dx tr.1)])
      (by linarith [Int.ceil_lt_add_one (pixOf px vx dx tr.1)])
  · have he : worldOf (py - (⌊pixOf py vy dy bl.2⌋ : α)) vy dy 0
        = worldOf py vy dy (⌊pixOf py vy dy bl.2⌋ : α) := by
      unfold worldOf
      ring
    rw [he]
    exact world_near py vy dy bl.2 hdy0 _
      (by linarith [Int.sub_one_lt_floor (pixOf py vy dy bl.2)])
      (by linarith [Int.floor_le (pixOf py vy dy bl.2)])
  · rw [hrows]
    have hnn : (0 : ℤ) ≤ ⌈pixOf py vy dy tr.2⌉ - ⌊pixOf py vy dy bl.2⌋ + 1 := by omega
    have hc : (((⌈pixOf py vy dy tr.2⌉ - ⌊pixOf py vy dy bl.2⌋ + 1).toNat : ℕ) : α)
        = (⌈pixOf py vy dy tr.2⌉ : α) - (⌊pixOf py vy dy bl.2⌋ : α) + 1 := by
      have h := Int.toNat_of_nonneg hnn
      exact_mod_cast congrArg (fun z : ℤ => (z : α)) h
    rw [hc]
    have he : worldOf (py - (⌊pixOf py vy dy bl.2⌋ : α)) vy dy
        ((⌈pixOf py vy dy tr.2⌉ : α) - (⌊pixOf py vy dy bl.2⌋ : α) + 1 - 1)
        = worldOf py vy dy (⌈pixOf py vy dy tr.2⌉ : α) := by
      unfold worldOf
      ring
    rw [he]
    exact world_near py vy dy tr.2 hdy0 _
      (by linarith [Int.le_ceil (pixOf py vy dy tr.2)])
      (by linarith [Int.ceil_lt_add_one (pixOf py vy dy tr.2)])

/-- C7 witness: the concrete rational 4 x 4 map with unit step sizes, sliced
between the physical corners (1/2, 1/2) and (5/2, 5/2). -/
theorem submap_spec_witness :
    ∃ S : ImageMap ℚ, submap qMap ((1 : ℚ)/2, (1 : ℚ)/2) ((5 : ℚ)/2, (5 : ℚ)/2) = some S ∧
      S.data.length ≤ qMap.data.length ∧
      ncols S.data ≤ ncols qMap.data ∧
      getNum S.meta "CRPIX1" = some ((0 : ℚ) - (⌊pixOf (0 : ℚ) 0 1 ((1 : ℚ)/2)⌋ : ℚ)) ∧
      getNum S.meta "CRPIX2" = some ((0 : ℚ) - (⌊pixOf (0 : ℚ) 0 1 ((1 : ℚ)/2)⌋ : ℚ)) ∧
      |worldOf ((0 : ℚ) - (⌊pixOf (0 : ℚ) 0 1 ((1 : ℚ)/2)⌋ : ℚ)) 0 1 0 - (1 : ℚ)/2| ≤ 1 ∧
      |worldOf ((0 : ℚ) - (⌊pixOf (0 : ℚ) 0 1 ((1 : ℚ)/2)⌋ : ℚ)) 0 1
        ((ncols S.data : ℚ) - 1) - (5 : ℚ)/2| ≤ 1 ∧
      |worldOf ((0 : ℚ) - (⌊pixOf (0 : ℚ) 0 1 ((1 : ℚ)/2)⌋ : ℚ)) 0 1 0 - (1 : ℚ)/2| ≤ 1 ∧
      |worldOf ((0 : ℚ) - (⌊pixOf (0 : ℚ) 0 1 ((1 : ℚ)/2)⌋ : ℚ)) 0 1
        ((S.data.length : ℚ) - 1) - (5 : ℚ)/2| ≤ 1 :=
  by
  apply submap_spec qMap ((1 : ℚ)/2, (1 : ℚ)/2) ((5 : ℚ)/2, (5 : ℚ)/2) 0 0 1 0 0 1
  · rfl
  · rfl
  · rfl
  · rfl
  · rfl
  · rfl
  · norm_num
  · norm_num
  · norm_num
  · norm_num
  · norm_num [pixOf]
  · norm_num [pixOf, show ncols qMap.data = 4 from rfl]
  · norm_num [pixOf]
  · norm_num [pixOf, show qMap.data.length = 4 from rfl]
  · intro r hr
    rw [List.eq_of_mem_replicate hr]
    rfl
